import Mathlib

/-!
Verification development for `pipeline_backup.py` (astroconda/pipeline-backup).

Strings are modelled as `List Char`; files are modelled as lists of lines.
The Python library primitives used by the program (`str.strip`, `str.split`,
`str.replace`, `str.startswith`, `os.path.join`, `os.path.normpath`,
`os.path.basename`, slicing) are embedded below with the semantics the
CPython implementation gives them on the inputs the program feeds them.
-/

/-- Characters removed by Python `str.strip()` (the ASCII whitespace set). -/
def pyIsSpace (c : Char) : Bool :=
  c = ' ' ∨ c = '\t' ∨ c = '\n' ∨ c = '\r' ∨ c = Char.ofNat 11 ∨ c = Char.ofNat 12

/-- Python `s.strip()`: drop leading and trailing whitespace. -/
def pyStrip (s : List Char) : List Char :=
  ((s.dropWhile pyIsSpace).reverse.dropWhile pyIsSpace).reverse

/-- Fuel-indexed core of Python `s.replace(old, new)` (all occurrences,
scanned left to right, non-overlapping; an empty `old` inserts `new` at
every position, matching CPython). -/
def pyReplaceF : Nat → List Char → List Char → List Char → List Char
  | 0, _, _, _ => []
  | _ + 1, [], old, new => if old = [] then new else []
  | fuel + 1, c :: cs, old, new =>
    if old = [] then new ++ c :: pyReplaceF fuel cs old new
    else if old.isPrefixOf (c :: cs) then
      new ++ pyReplaceF fuel ((c :: cs).drop old.length) old new
    else c :: pyReplaceF fuel cs old new

/-- Python `s.replace(old, new)`. -/
def pyReplace (s old new : List Char) : List Char :=
  pyReplaceF (s.length + 1) s old new

/-- Python `posixpath.join(a, b)` restricted to two arguments. -/
def pyJoin (a b : List Char) : List Char :=
  if ['/'].isPrefixOf b then b
  else if a = [] ∨ a.getLast? = some '/' then a ++ b
  else a ++ '/' :: b

/-- One step of the component scan in `posixpath.normpath`: keep plain
components, drop empty and dot components, resolve `..` where possible. -/
def normStep (initialSlashes : Nat) (acc : List (List Char)) (comp : List Char) :
    List (List Char) :=
  if comp = [] ∨ comp = ['.'] then acc
  else if comp ≠ ['.', '.'] ∨ (initialSlashes = 0 ∧ acc = []) ∨
      acc.getLast? = some ['.', '.'] then acc ++ [comp]
  else if acc ≠ [] then acc.dropLast
  else acc

/-- Python `posixpath.normpath`. -/
def pyNormpath (path : List Char) : List Char :=
  if path = [] then ['.']
  else
    let initialSlashes : Nat :=
      if ['/'].isPrefixOf path then
        if ['/', '/'].isPrefixOf path ∧ ¬ ['/', '/', '/'].isPrefixOf path then 2 else 1
      else 0
    let comps := path.splitOn '/'
    let newComps := comps.foldl (normStep initialSlashes) []
    let res := List.replicate initialSlashes '/' ++ List.intercalate ['/'] newComps
    if res = [] then ['.'] else res

/-- Python `posixpath.basename`: the suffix after the last `/` (the whole
string when it has no `/`). -/
def pyBasename (p : List Char) : List Char :=
  (p.reverse.takeWhile (fun c => ¬ c = '/')).reverse

/-- Python slicing `s[b:e]` for non-negative bounds. -/
def pySlice (s : List Char) (b e : Nat) : List Char :=
  (s.take e).drop b

/-- Index accumulator for the `enumerate` loop that collects the positions
of every `/` in a record (`Backup._determine_local_path`). -/
def markersFrom (i : Nat) : List Char → List Nat
  | [] => []
  | c :: cs => if c = '/' then i :: markersFrom (i + 1) cs else markersFrom (i + 1) cs

/-- Zero-based indices of every `/` character of a record, in order. -/
def markers (s : List Char) : List Nat :=
  markersFrom 0 s

/-! ## `PipelineSpec` (spec-file parser), from `pipeline_backup.py` lines 17-54 -/

namespace PipelineSpec

/-- Marker line prefix required by `PipelineSpec.verify`. -/
def explicitMarker : List Char := ('@' :: ('E' :: ('X' :: ('P' :: ('L' :: ('I' :: ('C' :: ('I' :: ('T' :: [])))))))))

/-- Error message of `PipelineSpecError` raised by `PipelineSpec._read`. -/
def invalidSpecMsg : String := "Invalid spec file"

/-- `PipelineSpec.verify`: the file holds some line starting with `@EXPLICIT`. -/
def verify (lines : List (List Char)) : Bool :=
  lines.any (fun l => explicitMarker.isPrefixOf l)

/-- The line loop of `PipelineSpec._read`: strip each line, drop it when it
is empty or starts with `#` or `@`, keep the rest in order. -/
def readLines : List (List Char) → List (List Char)
  | [] => []
  | l :: ls =>
    let t := pyStrip l
    if t = [] ∨ ['#'].isPrefixOf t ∨ ['@'].isPrefixOf t then readLines ls
    else t :: readLines ls

/-- `PipelineSpec._read` (the parse entry point run by `__init__`): raise
`PipelineSpecError` when `verify` fails, otherwise return the kept lines. -/
def readSpec (lines : List (List Char)) : Except String (List (List Char)) :=
  if verify lines then Except.ok (readLines lines) else Except.error invalidSpecMsg

/-- Body of the `PipelineSpec.replace` loop for one record: when some
`/`-separated part equals `old`, store `record.replace(old, new)`. -/
def replaceRecord (old new record : List Char) : List Char :=
  if old ∈ record.splitOn '/' then pyReplace record old new
  else record

/-- `PipelineSpec.replace`: rewrite each record of the document in place. -/
def replace (old new : List Char) (data : List (List Char)) : List (List Char) :=
  data.map (replaceRecord old new)

end PipelineSpec

/-! ## `Backup` (mirror engine), from `pipeline_backup.py` lines 57-146 -/

namespace Backup

/-- `self.block_size = 0xFFFF` set in `Backup.__init__`. -/
def blockSize : Nat := 0xFFFF

/-- Message of the `ValueError` raised by `Backup._determine_local_path`. -/
def invalidUrlMsg : String := "Invalid URL part length"

/-- Message of the `AttributeError` raised when `self.verbose` was never
assigned. -/
def attributeErrorMsg : String := "AttributeError: verbose"

/-- `Backup._determine_local_path`: derive `(local_path, filename)` from a
record, or raise `ValueError` when the record has fewer than 3 slashes. -/
def determineLocalPath (destination record : List Char) :
    Except String (List Char × List Char) :=
  let filename := pyBasename record
  let ms := markers record
  if ms.length < 3 then Except.error invalidUrlMsg
  else
    let b := ms.getD (ms.length - 3) 0 + 1
    let e := ms.getD (ms.length - 1) 0
    Except.ok (pyNormpath (pyJoin destination (pySlice record b e)), filename)

/-- Outcome of one `data.read(block_size)` call on the remote handle. -/
inductive ReadResult
  | chunk (bytes : List Nat)
  | readErr (reason : String)
deriving Repr, DecidableEq

/-- Behaviour of `urlopen` for one locator: an `HTTPError`, some other
exception at open time, or an open stream delivering a list of reads (after
the list is exhausted every further read returns an empty chunk). -/
inductive Remote
  | httpError (reason : String)
  | openError (reason : String)
  | stream (reads : List ReadResult)
deriving Repr, DecidableEq

/-- The `self.stats` dictionary. -/
structure Stats where
  read : Nat
  written : Nat
  success : Nat
  skipped : Nat
  fatal : List (List Char × String)
  fail : List (List Char × String)
deriving Repr, DecidableEq

/-- `self.stats` as initialized by `Backup.__init__`. -/
def initStats : Stats := ⟨0, 0, 0, 0, [], []⟩

/-- The relevant slice of the local filesystem: the set of directory paths
that exist and the files that exist, each with its byte content (lookups
take the first matching entry). -/
structure FS where
  dirs : List (List Char)
  files : List (List Char × List Nat)
deriving Repr, DecidableEq

/-- `os.path.exists` over the modelled filesystem. -/
def FS.existsPath (fs : FS) (p : List Char) : Bool :=
  fs.dirs.contains p || (fs.files.map Prod.fst).contains p

/-- Engine state: filesystem plus statistics. -/
structure MState where
  fs : FS
  stats : Stats
deriving Repr, DecidableEq

/-- The chunk loop of `Backup._download` (lines 113-119): the first read
happens before the loop; while the chunk is non-empty the chunk is written
and the next read happens; each successful read adds its length to `read`
and each write adds its length to `written`; a raising read aborts with its
reason. Returns the updated stats, the bytes written so far and the
exception reason when one was raised. -/
def transferAux : List ReadResult → Stats → List Nat → Stats × List Nat × Option String
  | [], st, content => (st, content, none)
  | ReadResult.readErr r :: _, st, content => (st, content, some r)
  | ReadResult.chunk bs :: rest, st, content =>
    let st1 : Stats := { st with read := st.read + bs.length }
    if bs.isEmpty then (st1, content, none)
    else transferAux rest { st1 with written := st1.written + bs.length } (content ++ bs)

/-- The `try`/`except` block of `Backup._download` (lines 107-126),
entered after the directory/skip checks with the computed full path: an
`HTTPError` from `urlopen` appends to `fail` and returns; any other
exception appends to `fatal` and — the handler does not return — falls
through to the `success` increment; on a stream the local file is created
(truncated), then `self.verbose` is read (raising `AttributeError` when the
attribute was never assigned), then the chunk loop runs; the file keeps
whatever bytes were written when an exception interrupts the loop. -/
def tryDownload (remote : List Char → Remote) (verbose : Option Bool)
    (url fullpath : List Char) (s : MState) : MState :=
  match remote url with
  | Remote.httpError r =>
    { s with stats := { s.stats with fail := s.stats.fail ++ [(url, r)] } }
  | Remote.openError r =>
    { s with stats := { s.stats with
        fatal := s.stats.fatal ++ [(url, r)]
        success := s.stats.success + 1 } }
  | Remote.stream reads =>
    match verbose with
    | none =>
      { fs := { s.fs with files := (fullpath, []) :: s.fs.files }
        stats := { s.stats with
          fatal := s.stats.fatal ++ [(url, attributeErrorMsg)]
          success := s.stats.success + 1 } }
    | some _ =>
      let t := transferAux reads s.stats []
      let fs2 : FS := { s.fs with files := (fullpath, t.2.1) :: s.fs.files }
      match t.2.2 with
      | some r =>
        { fs := fs2
          stats := { t.1 with
            fatal := t.1.fatal ++ [(url, r)]
            success := t.1.success + 1 } }
      | none => { fs := fs2, stats := { t.1 with success := t.1.success + 1 } }

/-- `Backup._download`: resolve the local path (a `ValueError` propagates),
create the directory when missing, otherwise skip when the file exists,
otherwise run the transfer block. -/
def download (remote : List Char → Remote) (verbose : Option Bool)
    (destination url : List Char) (s : MState) : Except String MState :=
  match determineLocalPath destination url with
  | Except.error e => Except.error e
  | Except.ok pf =>
    let dirpath := pyJoin destination pf.1
    let fullpath := pyJoin dirpath pf.2
    if ¬ s.fs.existsPath dirpath then
      Except.ok (tryDownload remote verbose url fullpath
        { s with fs := { s.fs with dirs := dirpath :: s.fs.dirs } })
    else if s.fs.existsPath fullpath then
      Except.ok { s with stats := { s.stats with skipped := s.stats.skipped + 1 } }
    else
      Except.ok (tryDownload remote verbose url fullpath s)

/-- `Backup.run`: `_download` each url of `self.data` in order; an
exception escaping `_download` aborts the whole run. -/
def runEngine (remote : List Char → Remote) (verbose : Option Bool)
    (destination : List Char) : List (List Char) → MState → Except String MState
  | [], s => Except.ok s
  | url :: rest, s =>
    match download remote verbose destination url s with
    | Except.error e => Except.error e
    | Except.ok s1 => runEngine remote verbose destination rest s1

/-- `Backup(data, destination)` followed by `run()`: the destination is
normalized by `__init__`, the stats start at zero, and `verbose` is the
attribute state at run time (`none` when the caller never assigned it). -/
def backupRun (remote : List Char → Remote) (verbose : Option Bool)
    (destination : List Char) (data : List (List Char)) (fs0 : FS) :
    Except String MState :=
  runEngine remote verbose (pyNormpath destination) data ⟨fs0, initStats⟩

end Backup

/-! ## Specification-side predicates -/

/-- A line kept by the parser per the spec: non-blank after trimming and
not starting with `#` or `@`. -/
def keepLine (t : List Char) : Bool :=
  !(t.isEmpty || ['#'].isPrefixOf t || ['@'].isPrefixOf t)

/-- The token `old` occurs as a full `/`-delimited segment of `r`: it
appears with the start of the string or a `/` on its left, and the end of
the string or a `/` on its right. -/
def isFullSegment (old r : List Char) : Prop :=
  ∃ pre post, r = pre ++ old ++ post ∧ (pre = [] ∨ pre.getLast? = some '/') ∧
    (post = [] ∨ post.head? = some '/')

/-- A plain path segment: non-empty, slash-free and not a dot component. -/
def plainSeg (s : List Char) : Prop :=
  s ≠ [] ∧ '/' ∉ s ∧ s ≠ ['.'] ∧ s ≠ ['.', '.']

instance (s : List Char) : Decidable (plainSeg s) := by
  unfold plainSeg; infer_instance

/-! ## Parser lemmas -/

lemma readLines_eq_filter (lines : List (List Char)) :
    PipelineSpec.readLines lines = (lines.map pyStrip).filter keepLine := by
  induction lines with
  | nil => rfl
  | cons l ls ih =>
    simp only [PipelineSpec.readLines, List.map_cons, List.filter_cons, keepLine]
    by_cases h1 : pyStrip l = []
    · simp [h1, List.isEmpty_iff, ih]
    · by_cases h2 : ['#'].isPrefixOf (pyStrip l) = true
      · simp [h1, h2, ih]
      · by_cases h3 : ['@'].isPrefixOf (pyStrip l) = true
        · simp [h1, h2, h3, ih]
        · simp [h1, h2, h3, ih, List.isEmpty_iff]

/-- Claim C7: parsing fails with the invalid-spec error exactly when no
line of the file starts with the literal marker `@EXPLICIT`; otherwise it
returns, in original order, every line after whitespace trimming, excluding
empty lines and lines starting with `#` or `@`, with no deduplication. -/
theorem C7_parse_spec (lines : List (List Char)) :
    ((PipelineSpec.readSpec lines = Except.error PipelineSpec.invalidSpecMsg) ↔
      ∀ l ∈ lines, PipelineSpec.explicitMarker.isPrefixOf l = false) ∧
    ((∃ l ∈ lines, PipelineSpec.explicitMarker.isPrefixOf l = true) →
      PipelineSpec.readSpec lines = Except.ok ((lines.map pyStrip).filter keepLine)) := by
  unfold PipelineSpec.readSpec PipelineSpec.verify
  by_cases hv : lines.any (fun l => PipelineSpec.explicitMarker.isPrefixOf l) = true
  · rw [if_pos hv]
    constructor
    · constructor
      · intro h; exact absurd h (by simp)
      · intro hall
        rw [List.any_eq_true] at hv
        obtain ⟨l, hl, hp⟩ := hv
        exact absurd (hall l hl) (by simp [hp])
    · intro _
      rw [readLines_eq_filter]
  · rw [if_neg hv]
    constructor
    · constructor
      · intro _
        intro l hl
        rw [List.any_eq_true] at hv
        push_neg at hv
        have h2 := hv l hl
        cases hb : PipelineSpec.explicitMarker.isPrefixOf l with
        | true => exact absurd hb h2
        | false => rfl
      · intro _; rfl
    · intro hex
      obtain ⟨l, hl, hp⟩ := hex
      exact absurd (List.any_eq_true.mpr ⟨l, hl, hp⟩) hv

/-- Witness for C7 at a concrete two-line file. -/
theorem C7_parse_spec_witness :
    PipelineSpec.readSpec [("@EXPLICIT").toList, (" pkg ").toList] =
      Except.ok [("pkg").toList] := by
  have h := (C7_parse_spec [("@EXPLICIT").toList, (" pkg ").toList]).2
    ⟨("@EXPLICIT").toList, by simp, by decide⟩
  exact h.trans (by rfl)

/-- Claim C2 fails on the code: for record `a/x/a` with old token `a`,
`replace` rewrites every occurrence, so the last segment becomes `b` as
well, while the claim requires only the first occurrence to change. -/
theorem C2_counterexample :
    PipelineSpec.replace (("a").toList) (("b").toList) [("a/x/a").toList] =
      [("b/x/b").toList] ∧ ("b/x/b").toList ≠ ("b/x/a").toList := by
  exact ⟨by rfl, by decide⟩

/-! ## Segment characterization of `splitOn` membership -/

lemma intercal_cons (a : List Char) (w : List (List Char)) :
    ['/'].intercalate (a :: w) =
      a ++ (if w = [] then [] else '/' :: ['/'].intercalate w) := by
  cases w with
  | nil => simp [List.intercalate]
  | cons b t => simp [List.intercalate, List.intersperse]

lemma intercal_append_cons (u v : List (List Char)) (x : List Char) :
    ['/'].intercalate (u ++ x :: v) =
      (if u = [] then [] else ['/'].intercalate u ++ ['/']) ++ x ++
        (if v = [] then [] else '/' :: ['/'].intercalate v) := by
  induction u with
  | nil => simp [intercal_cons]
  | cons a u ih =>
    rw [List.cons_append, intercal_cons, ih, intercal_cons a u]
    cases u with
    | nil => simp
    | cons b t => simp [List.append_assoc]

lemma isFullSegment_of_mem_splitOn (old r : List Char) (h : old ∈ r.splitOn '/') :
    isFullSegment old r := by
  obtain ⟨u, v, huv⟩ := List.append_of_mem h
  have hr : r = ['/'].intercalate (u ++ old :: v) := by
    rw [← huv, List.intercalate_splitOn]
  rw [intercal_append_cons] at hr
  refine ⟨if u = [] then [] else ['/'].intercalate u ++ ['/'],
    if v = [] then [] else '/' :: ['/'].intercalate v, by simpa using hr, ?_, ?_⟩
  · by_cases hu : u = []
    · exact Or.inl (by simp [hu])
    · exact Or.inr (by simp [hu, List.getLast?_concat])
  · by_cases hv : v = []
    · exact Or.inl (by simp [hv])
    · exact Or.inr (by simp [hv])

lemma splitOnP_append_sep (a b : List Char) :
    (a ++ '/' :: b).splitOnP (fun x => x == '/') =
      a.splitOnP (fun x => x == '/') ++ b.splitOnP (fun x => x == '/') := by
  induction a with
  | nil => simp
  | cons c a ih =>
    rw [List.cons_append, List.splitOnP_cons, List.splitOnP_cons]
    by_cases hc : c = '/'
    · simp [hc, ih]
    · have hb : (c == '/') = false := by simp [hc]
      rw [hb]
      simp only [Bool.false_eq_true, if_false]
      rw [ih]
      cases hsa : a.splitOnP (fun x => x == '/') with
      | nil => exact absurd hsa (List.splitOnP_ne_nil _ a)
      | cons s t => simp

lemma splitOn_append_sep (a b : List Char) :
    (a ++ '/' :: b).splitOn '/' = a.splitOn '/' ++ b.splitOn '/' :=
  splitOnP_append_sep a b

lemma mem_splitOn_head (old post : List Char) (hslash : '/' ∉ old)
    (hpost : post = [] ∨ post.head? = some '/') :
    old ∈ (old ++ post).splitOn '/' := by
  cases hpost with
  | inl h =>
    subst h
    rw [List.append_nil]
    have : old.splitOn '/' = [old] := by
      apply List.splitOnP_eq_single
      intro x hx
      simp only [beq_iff_eq]
      intro hc; exact hslash (hc ▸ hx)
    rw [this]; exact List.mem_singleton.mpr rfl
  | inr h =>
    cases post with
    | nil => simp at h
    | cons c q =>
      have hc : c = '/' := by simpa using h
      subst hc
      rw [splitOn_append_sep]
      have : old.splitOn '/' = [old] := by
        apply List.splitOnP_eq_single
        intro x hx
        simp only [beq_iff_eq]
        intro hcx; exact hslash (hcx ▸ hx)
      rw [this]
      exact List.mem_append_left _ (List.mem_singleton.mpr rfl)

lemma mem_splitOn_of_isFullSegment (old r : List Char) (hslash : '/' ∉ old)
    (h : isFullSegment old r) : old ∈ r.splitOn '/' := by
  obtain ⟨pre, post, hr, hpre, hpost⟩ := h
  cases hpre with
  | inl hp =>
    subst hp
    rw [hr, List.nil_append]
    exact mem_splitOn_head old post hslash hpost
  | inr hp =>
    have hpn : pre ≠ [] := by
      intro hc; rw [hc] at hp; simp at hp
    have hlast : pre.getLast hpn = '/' := by
      have := List.getLast?_eq_getLast pre hpn
      rw [this] at hp
      exact Option.some_injective _ hp
    have hsplit : pre.dropLast ++ ['/'] = pre := by
      rw [← hlast]
      exact List.dropLast_append_getLast hpn
    rw [hr, ← hsplit]
    have : pre.dropLast ++ ['/'] ++ old ++ post = pre.dropLast ++ '/' :: (old ++ post) := by
      simp [List.append_assoc]
    rw [this, splitOn_append_sep]
    exact List.mem_append_right _ (mem_splitOn_head old post hslash hpost)

lemma mem_splitOn_iff_isFullSegment (old r : List Char) (hslash : '/' ∉ old) :
    old ∈ r.splitOn '/' ↔ isFullSegment old r :=
  ⟨isFullSegment_of_mem_splitOn old r, mem_splitOn_of_isFullSegment old r hslash⟩

/-- Claim C2, amended: `replace` mutates exactly those locators that have
`old` as a full `/`-delimited segment, and for such a locator it performs
Python string replacement of ALL (left-to-right, non-overlapping) textual
occurrences of `old` in the full locator string — not only the first;
locators without `old` as a segment are untouched even when `old` appears
as a substring elsewhere. -/
theorem C2_replace_amended (old new : List Char) (hslash : '/' ∉ old)
    (data : List (List Char)) (i : Nat) (r : List Char) (hr : data[i]? = some r) :
    (isFullSegment old r →
      (PipelineSpec.replace old new data)[i]? = some (pyReplace r old new)) ∧
    (¬ isFullSegment old r → (PipelineSpec.replace old new data)[i]? = some r) := by
  have hmap : (PipelineSpec.replace old new data)[i]? =
      some (PipelineSpec.replaceRecord old new r) := by
    unfold PipelineSpec.replace
    rw [List.getElem?_map, hr]
    rfl
  constructor
  · intro hseg
    rw [hmap]
    unfold PipelineSpec.replaceRecord
    rw [if_pos ((mem_splitOn_iff_isFullSegment old r hslash).mpr hseg)]
  · intro hseg
    rw [hmap]
    unfold PipelineSpec.replaceRecord
    rw [if_neg (fun hm => hseg ((mem_splitOn_iff_isFullSegment old r hslash).mp hm))]

/-- Witness for C2 at the record `u/a` with tokens `a` → `bb`. -/
theorem C2_replace_amended_witness :
    (PipelineSpec.replace (("a").toList) (("bb").toList) [("u/a").toList])[0]? =
      some (("u/bb").toList) := by
  have h := (C2_replace_amended (("a").toList) (("bb").toList) (by decide)
      [("u/a").toList] 0 (("u/a").toList) rfl).1
    ⟨("u/").toList, [], by decide, Or.inr (by decide), Or.inl rfl⟩
  exact h.trans (by rfl)

/-! ## Marker (slash index) lemmas -/

lemma takeWhile_append_stop (p : Char → Bool) (a : List Char) (x : Char) (b : List Char)
    (ha : ∀ y ∈ a, p y) (hx : p x = false) : (a ++ x :: b).takeWhile p = a := by
  induction a with
  | nil => simp [List.takeWhile, hx]
  | cons c t ih =>
    simp [List.takeWhile, ha c (by simp), ih fun y hy => ha y (by simp [hy])]

lemma markersFrom_append (a b : List Char) (i : Nat) :
    markersFrom i (a ++ b) = markersFrom i a ++ markersFrom (i + a.length) b := by
  induction a generalizing i with
  | nil => simp [markersFrom]
  | cons c a ih =>
    have step : markersFrom i ((c :: a) ++ b) =
        (if c = '/' then i :: markersFrom (i + 1) (a ++ b)
         else markersFrom (i + 1) (a ++ b)) := rfl
    have stepA : markersFrom i (c :: a) =
        (if c = '/' then i :: markersFrom (i + 1) a else markersFrom (i + 1) a) := rfl
    rw [step, stepA, ih]
    have h2 : i + 1 + a.length = i + (c :: a).length := by
      simp only [List.length_cons]
      omega
    rw [h2]
    by_cases hc : c = '/' <;> simp [hc]

lemma markersFrom_eq_nil (a : List Char) (i : Nat) (h : '/' ∉ a) : markersFrom i a = [] := by
  induction a generalizing i with
  | nil => rfl
  | cons c t ih =>
    have hc : ¬ c = '/' := fun hcc => h (by simp [hcc])
    have ht : '/' ∉ t := fun hm => h (List.mem_cons_of_mem c hm)
    simp [markersFrom, hc, ih _ ht]

lemma markersFrom_length (a : List Char) (i : Nat) :
    (markersFrom i a).length = a.count '/' := by
  induction a generalizing i with
  | nil => rfl
  | cons c t ih =>
    by_cases hc : c = '/'
    · simp [markersFrom, hc, ih, List.count_cons]
    · have hb : (c == '/') = false := by simp [hc]
      simp [markersFrom, hc, ih, List.count_cons, hb]

lemma markersFrom_last3 (x y fn : List Char) (q : Nat)
    (hx : '/' ∉ x) (hy : '/' ∉ y) (hfn : '/' ∉ fn) :
    markersFrom q ('/' :: (x ++ '/' :: (y ++ '/' :: fn))) =
      [q, q + x.length + 1, q + x.length + y.length + 2] := by
  have h1 : markersFrom q ('/' :: (x ++ '/' :: (y ++ '/' :: fn))) =
      q :: markersFrom (q + 1) (x ++ '/' :: (y ++ '/' :: fn)) := by
    simp [markersFrom]
  rw [h1, markersFrom_append, markersFrom_eq_nil x _ hx, List.nil_append]
  have h2 : markersFrom (q + 1 + x.length) ('/' :: (y ++ '/' :: fn)) =
      (q + 1 + x.length) :: markersFrom (q + 1 + x.length + 1) (y ++ '/' :: fn) := by
    simp [markersFrom]
  rw [h2, markersFrom_append, markersFrom_eq_nil y _ hy, List.nil_append]
  have h3 : markersFrom (q + 1 + x.length + 1 + y.length) ('/' :: fn) =
      (q + 1 + x.length + 1 + y.length) ::
        markersFrom (q + 1 + x.length + 1 + y.length + 1) fn := by
    simp [markersFrom]
  rw [h3, markersFrom_eq_nil fn _ hfn]
  have e2 : q + 1 + x.length + 1 + y.length = q + x.length + y.length + 2 := by omega
  have e1 : q + 1 + x.length = q + x.length + 1 := by omega
  rw [e2, e1]

/-- The slash markers of a record shaped `pre / x / y / fn` with slash-free
`x`, `y`, `fn`: the markers of `pre` followed by the last three slashes. -/
lemma markers_decomp (pre x y fn : List Char)
    (hx : '/' ∉ x) (hy : '/' ∉ y) (hfn : '/' ∉ fn) :
    markers (pre ++ '/' :: (x ++ '/' :: (y ++ '/' :: fn))) =
      markers pre ++
        [pre.length, pre.length + x.length + 1,
          pre.length + x.length + y.length + 2] := by
  unfold markers
  rw [markersFrom_append]
  have hq : 0 + pre.length = pre.length := by omega
  rw [hq, markersFrom_last3 x y fn pre.length hx hy hfn]

/-! ## Resolver lemmas -/

lemma basename_decomp (pre x y fn : List Char) (hfn : '/' ∉ fn) :
    pyBasename (pre ++ '/' :: (x ++ '/' :: (y ++ '/' :: fn))) = fn := by
  unfold pyBasename
  have hrev : (pre ++ '/' :: (x ++ '/' :: (y ++ '/' :: fn))).reverse =
      fn.reverse ++ '/' :: (y.reverse ++ '/' :: (x.reverse ++ '/' :: pre.reverse)) := by
    simp [List.reverse_append, List.reverse_cons, List.append_assoc]
  rw [hrev, takeWhile_append_stop _ _ '/' _ ?memOK (by simp), List.reverse_reverse]
  case memOK =>
    intro z hz
    simp only [decide_eq_true_eq]
    intro hzz
    exact hfn (hzz ▸ (List.mem_reverse.mp hz))

lemma slice_decomp (pre x y fn : List Char) :
    pySlice (pre ++ '/' :: (x ++ '/' :: (y ++ '/' :: fn)))
      (pre.length + 1) (pre.length + x.length + y.length + 2) = x ++ '/' :: y := by
  unfold pySlice
  have hA : pre ++ '/' :: (x ++ '/' :: (y ++ '/' :: fn)) =
      (pre ++ '/' :: (x ++ '/' :: y)) ++ '/' :: fn := by
    simp [List.append_assoc]
  rw [hA]
  have hlenA : (pre ++ '/' :: (x ++ '/' :: y)).length =
      pre.length + x.length + y.length + 2 := by
    simp only [List.length_append, List.length_cons]
    omega
  rw [← hlenA, List.take_left]
  have hB : pre ++ '/' :: (x ++ '/' :: y) = (pre ++ ['/']) ++ (x ++ '/' :: y) := by
    simp [List.append_assoc]
  rw [hB]
  have hlenB : (pre ++ ['/']).length = pre.length + 1 := by simp
  rw [← hlenB, List.drop_left]

lemma getD_append_at (M : List Nat) (L : List Nat) (k : Nat) :
    (M ++ L).getD (M.length + k) 0 = L.getD k 0 := by
  have h := List.getD_append_right M L 0 (M.length + k) (by omega)
  have h2 : M.length + k - M.length = k := by omega
  rw [h2] at h
  exact h

lemma resolve_decomp (dest pre x y fn : List Char)
    (hx : '/' ∉ x) (hy : '/' ∉ y) (hfn : '/' ∉ fn) :
    Backup.determineLocalPath dest (pre ++ '/' :: (x ++ '/' :: (y ++ '/' :: fn))) =
      Except.ok (pyNormpath (pyJoin dest (x ++ '/' :: y)), fn) := by
  simp only [Backup.determineLocalPath]
  rw [markers_decomp pre x y fn hx hy hfn, basename_decomp pre x y fn hfn]
  have hlen : (markers pre ++
      [pre.length, pre.length + x.length + 1,
        pre.length + x.length + y.length + 2]).length = (markers pre).length + 3 := by
    simp
  rw [hlen]
  rw [if_neg (by omega)]
  have e3 : (markers pre).length + 3 - 3 = (markers pre).length + 0 := by omega
  have e1 : (markers pre).length + 3 - 1 = (markers pre).length + 2 := by omega
  rw [e3, e1, getD_append_at, getD_append_at]
  have g0 : List.getD [pre.length, pre.length + x.length + 1,
      pre.length + x.length + y.length + 2] 0 0 = pre.length := rfl
  have g2 : List.getD [pre.length, pre.length + x.length + 1,
      pre.length + x.length + y.length + 2] 2 0 =
      pre.length + x.length + y.length + 2 := rfl
  rw [g0, g2, slice_decomp pre x y fn]

lemma exists_last_slash (s : List Char) (h : '/' ∈ s) :
    ∃ u v, s = u ++ '/' :: v ∧ '/' ∉ v := by
  induction s with
  | nil => simp at h
  | cons c cs ih =>
    by_cases hm : '/' ∈ cs
    · obtain ⟨u, v, huv, hv⟩ := ih hm
      exact ⟨c :: u, v, by rw [huv]; rfl, hv⟩
    · have hc : c = '/' := by
        rcases List.mem_cons.mp h with h1 | h2
        · exact h1.symm
        · exact absurd h2 hm
      exact ⟨[], cs, by rw [hc]; rfl, hm⟩

/-- Claim C5: for every locator with at least 3 slashes, resolution returns
the final segment as filename and, as directory, the normalized join of the
destination root with the substring from one past the 3rd-from-last `/` up
to (excluding) the last `/`; concretely, `http://x/y/z/w/pkg.tar` against
root `/root` yields directory `/root/z/w` and filename `pkg.tar`. Every
locator with at least 3 slashes decomposes uniquely as
`pre / x / y / fn` with slash-free `x`, `y`, `fn`, and on that shape the
extracted substring is `x/y` and the filename is `fn`. -/
theorem C5_resolve_paths :
    (Backup.determineLocalPath (("/root").toList) (("http://x/y/z/w/pkg.tar").toList) =
      Except.ok (("/root/z/w").toList, ("pkg.tar").toList)) ∧
    (∀ dest pre x y fn : List Char, '/' ∉ x → '/' ∉ y → '/' ∉ fn →
      Backup.determineLocalPath dest (pre ++ '/' :: (x ++ '/' :: (y ++ '/' :: fn))) =
        Except.ok (pyNormpath (pyJoin dest (x ++ '/' :: y)), fn)) ∧
    (∀ url : List Char, 3 ≤ url.count '/' →
      ∃ pre x y fn : List Char,
        url = pre ++ '/' :: (x ++ '/' :: (y ++ '/' :: fn)) ∧
          '/' ∉ x ∧ '/' ∉ y ∧ '/' ∉ fn) := by
  refine ⟨by rfl, fun dest pre x y fn hx hy hfn =>
    resolve_decomp dest pre x y fn hx hy hfn, ?_⟩
  intro url hcnt
  have h1 : '/' ∈ url := List.count_pos_iff.mp (by omega)
  obtain ⟨u1, fn, hu1, hfn⟩ := exists_last_slash url h1
  have hc1 : url.count '/' = u1.count '/' + 1 := by
    rw [hu1, List.count_append, List.count_cons]
    simp [List.count_eq_zero.mpr hfn]
  have h2 : '/' ∈ u1 := List.count_pos_iff.mp (by omega)
  obtain ⟨u2, y, hu2, hy⟩ := exists_last_slash u1 h2
  have hc2 : u1.count '/' = u2.count '/' + 1 := by
    rw [hu2, List.count_append, List.count_cons]
    simp [List.count_eq_zero.mpr hy]
  have h3 : '/' ∈ u2 := List.count_pos_iff.mp (by omega)
  obtain ⟨pre, x, hu3, hx⟩ := exists_last_slash u2 h3
  refine ⟨pre, x, y, fn, ?_, hx, hy, hfn⟩
  rw [hu1, hu2, hu3]
  simp [List.append_assoc]

/-- Witness for C5 at a concrete decomposed locator. -/
theorem C5_resolve_paths_witness :
    Backup.determineLocalPath (("/r").toList)
        ((("a://h").toList) ++ '/' ::
          ((("c").toList) ++ '/' :: ((("d").toList) ++ '/' :: (("f").toList)))) =
      Except.ok (pyNormpath (pyJoin (("/r").toList)
        ((("c").toList) ++ '/' :: (("d").toList))), ("f").toList) :=
  C5_resolve_paths.2.1 (("/r").toList) (("a://h").toList) (("c").toList)
    (("d").toList) (("f").toList) (by decide) (by decide) (by decide)

/-! ## Malformed locator lemmas -/

lemma markers_length_eq_count (url : List Char) :
    (markers url).length = url.count '/' := by
  unfold markers
  exact markersFrom_length url 0

lemma determineLocalPath_err (dest url : List Char) (h : url.count '/' < 3) :
    Backup.determineLocalPath dest url = Except.error Backup.invalidUrlMsg := by
  simp only [Backup.determineLocalPath]
  rw [markers_length_eq_count]
  rw [if_pos h]

lemma determineLocalPath_error_msg (dest url : List Char) (e : String)
    (h : Backup.determineLocalPath dest url = Except.error e) :
    e = Backup.invalidUrlMsg := by
  simp only [Backup.determineLocalPath] at h
  split at h
  · exact (Except.error.injEq _ _ ▸ h).symm
  · exact absurd h (by simp)

lemma download_err (remote : List Char → Backup.Remote) (verbose : Option Bool)
    (dest url : List Char) (s : Backup.MState) (h : url.count '/' < 3) :
    Backup.download remote verbose dest url s = Except.error Backup.invalidUrlMsg := by
  unfold Backup.download
  rw [determineLocalPath_err dest url h]

lemma download_error_msg (remote : List Char → Backup.Remote) (verbose : Option Bool)
    (dest url : List Char) (s : Backup.MState) (e : String)
    (h : Backup.download remote verbose dest url s = Except.error e) :
    e = Backup.invalidUrlMsg := by
  unfold Backup.download at h
  cases hd : Backup.determineLocalPath dest url with
  | error e2 =>
    rw [hd] at h
    simp only [Except.error.injEq] at h
    exact h.symm.trans (determineLocalPath_error_msg dest url e2 hd)
  | ok pf =>
    rw [hd] at h
    dsimp only at h
    split at h
    · exact absurd h (by simp)
    · split at h
      · exact absurd h (by simp)
      · exact absurd h (by simp)

lemma runEngine_error_of_mem (remote : List Char → Backup.Remote)
    (verbose : Option Bool) (dest : List Char) :
    ∀ (data : List (List Char)) (s : Backup.MState) (url : List Char),
      url ∈ data → url.count '/' < 3 →
      Backup.runEngine remote verbose dest data s = Except.error Backup.invalidUrlMsg := by
  intro data
  induction data with
  | nil => intro s url hm; exact absurd hm (List.not_mem_nil url)
  | cons u rest ih =>
    intro s url hm hcnt
    unfold Backup.runEngine
    cases hd : Backup.download remote verbose dest u s with
    | error e =>
      rw [download_error_msg remote verbose dest u s e hd]
    | ok s1 =>
      rcases List.mem_cons.mp hm with h1 | h2
      · subst h1
        exact absurd hd (by rw [download_err remote verbose dest url s hcnt]; simp)
      · exact ih s1 url h2 hcnt

/-- Claim C6: a locator with fewer than 3 slashes makes path resolution
fail with the malformed-locator error, and when the engine meets such a
locator during a run the error propagates out of the whole run (no state,
in particular no per-item `fail`/`fatal` record, is returned). -/
theorem C6_malformed_aborts (dest url : List Char) (hcnt : url.count '/' < 3) :
    (Backup.determineLocalPath dest url = Except.error Backup.invalidUrlMsg) ∧
    (∀ (remote : List Char → Backup.Remote) (verbose : Option Bool)
      (data : List (List Char)) (fs0 : Backup.FS), url ∈ data →
      Backup.backupRun remote verbose dest data fs0 = Except.error Backup.invalidUrlMsg) := by
  refine ⟨determineLocalPath_err dest url hcnt, ?_⟩
  intro remote verbose data fs0 hm
  unfold Backup.backupRun
  exact runEngine_error_of_mem remote verbose (pyNormpath dest) data _ url hm hcnt

/-- Witness for C6 at the two-slash locator `http://x`. -/
theorem C6_malformed_aborts_witness :
    (Backup.determineLocalPath (("/r").toList) (("http://x").toList) =
      Except.error Backup.invalidUrlMsg) ∧
    (Backup.backupRun (fun _ => Backup.Remote.stream []) none (("/r").toList)
        [("http://x").toList] ⟨[], []⟩ = Except.error Backup.invalidUrlMsg) := by
  have h := C6_malformed_aborts (("/r").toList) (("http://x").toList) (by decide)
  exact ⟨h.1, h.2 (fun _ => Backup.Remote.stream []) none [("http://x").toList]
    ⟨[], []⟩ (by simp)⟩

/-! ## Concrete sample values used by the engine claims -/

/-- Sample locator from the spec's worked example. -/
def sampleUrl : List Char := ("http://x/y/z/w/pkg.tar").toList

/-- Sample absolute destination root. -/
def rootDest : List Char := ("/root").toList

/-- Sample HTTP protocol error reason. -/
def err404 : String := "404"

/-- Sample non-HTTP transfer error reason. -/
def connResetMsg : String := "ConnectionReset"

/-- Claim C1 is right and the code is wrong: an `HTTPError` appends to
`fail` and skips the `success` increment (the handler returns), but the
generic `except Exception` handler at line 123 has no `return`, so after a
non-HTTP failure control falls through to line 126 and `success` IS
incremented. The first conjunct shows the HTTP path behaves as claimed;
the second shows a generic open failure is appended to `fatal` and
nevertheless counted as a success. -/
theorem C1_fatal_increments_success :
    ((Backup.download (fun _ => Backup.Remote.httpError err404) (some true) rootDest
        sampleUrl ⟨⟨[], []⟩, Backup.initStats⟩).map
      (fun s => (s.stats.fail, s.stats.fatal, s.stats.success)) =
      Except.ok ([(sampleUrl, err404)], [], 0)) ∧
    ((Backup.download (fun _ => Backup.Remote.openError connResetMsg) (some true)
        rootDest sampleUrl ⟨⟨[], []⟩, Backup.initStats⟩).map
      (fun s => (s.stats.fail, s.stats.fatal, s.stats.success)) =
      Except.ok ([], [(sampleUrl, connResetMsg)], 1)) :=
  ⟨rfl, rfl⟩

/-- Claim C3 fails on the code: `Backup.__init__` sets
`block_size = 0xFFFF`, which is 65535 bytes, not the claimed 64KiB
(65536 bytes). -/
theorem C3_counterexample : Backup.blockSize = 65535 ∧ Backup.blockSize ≠ 65536 :=
  ⟨rfl, by decide⟩

lemma transferAux_clean (chunks : List (List Nat)) :
    ∀ (st : Backup.Stats) (content : List Nat), (∀ c ∈ chunks, c ≠ []) →
      Backup.transferAux (chunks.map Backup.ReadResult.chunk) st content =
        ({ st with read := st.read + (chunks.map List.length).sum,
                   written := st.written + (chunks.map List.length).sum },
          content ++ chunks.flatten, none) := by
  induction chunks with
  | nil =>
    intro st content _
    simp [Backup.transferAux]
  | cons c rest ih =>
    intro st content h
    have hc : c ≠ [] := h c (List.mem_cons_self c rest)
    have hemp : c.isEmpty = false := by
      cases c with
      | nil => exact absurd rfl hc
      | cons a t => rfl
    simp only [List.map_cons, Backup.transferAux, hemp, Bool.false_eq_true, if_false]
    rw [ih _ _ (fun d hd => h d (List.mem_cons_of_mem c hd))]
    simp only [List.map_cons, List.sum_cons, List.flatten_cons, List.append_assoc]
    refine congrArg (fun z => (z, content ++ (c ++ rest.flatten), none)) ?_
    have e1 : st.read + c.length + (rest.map List.length).sum =
        st.read + (c.length + (rest.map List.length).sum) := by omega
    have e2 : st.written + c.length + (rest.map List.length).sum =
        st.written + (c.length + (rest.map List.length).sum) := by omega
    rw [e1, e2]

lemma transferAux_clean_stop (chunks : List (List Nat)) :
    ∀ (st : Backup.Stats) (content : List Nat)
      (extra : List Backup.ReadResult), (∀ c ∈ chunks, c ≠ []) →
      Backup.transferAux
          (chunks.map Backup.ReadResult.chunk ++ Backup.ReadResult.chunk [] :: extra)
          st content =
        ({ st with read := st.read + (chunks.map List.length).sum,
                   written := st.written + (chunks.map List.length).sum },
          content ++ chunks.flatten, none) := by
  induction chunks with
  | nil =>
    intro st content extra _
    simp [Backup.transferAux]
  | cons c rest ih =>
    intro st content extra h
    have hc : c ≠ [] := h c (List.mem_cons_self c rest)
    have hemp : c.isEmpty = false := by
      cases c with
      | nil => exact absurd rfl hc
      | cons a t => rfl
    simp only [List.map_cons, List.cons_append, Backup.transferAux, hemp,
      Bool.false_eq_true, if_false, List.append_eq]
    rw [ih _ _ extra (fun d hd => h d (List.mem_cons_of_mem c hd))]
    simp only [List.sum_cons, List.flatten_cons, List.append_assoc]
    refine congrArg (fun z => (z, content ++ (c ++ rest.flatten), none)) ?_
    have e1 : st.read + c.length + (rest.map List.length).sum =
        st.read + (c.length + (rest.map List.length).sum) := by omega
    have e2 : st.written + c.length + (rest.map List.length).sum =
        st.written + (c.length + (rest.map List.length).sum) := by omega
    rw [e1, e2]

/-- Claim C3, amended: the transfer block size is 0xFFFF = 65535 bytes
(not 65536): when every chunk the remote hands back is non-empty and at
most `blockSize` long, the loop adds each chunk's length to `read` after
the read and to `written` after the write, accumulating exactly the sum of
the chunk lengths on both counters, and it terminates at the first
zero-length read, ignoring anything after it. -/
theorem C3_chunking_amended (chunks : List (List Nat)) (st : Backup.Stats)
    (h1 : ∀ c ∈ chunks, c ≠ []) (h2 : ∀ c ∈ chunks, c.length ≤ Backup.blockSize) :
    Backup.blockSize = 65535 ∧
    (∀ extra : List Backup.ReadResult,
      Backup.transferAux
          (chunks.map Backup.ReadResult.chunk ++ Backup.ReadResult.chunk [] :: extra)
          st [] =
        ({ st with read := st.read + (chunks.map List.length).sum,
                   written := st.written + (chunks.map List.length).sum },
          chunks.flatten, none)) ∧
    Backup.transferAux (chunks.map Backup.ReadResult.chunk) st [] =
      ({ st with read := st.read + (chunks.map List.length).sum,
                 written := st.written + (chunks.map List.length).sum },
        chunks.flatten, none) := by
  refine ⟨rfl, ?_, ?_⟩
  · intro extra
    rw [transferAux_clean_stop chunks st [] extra h1]
    simp
  · rw [transferAux_clean chunks st [] h1]
    simp

/-- Witness for C3 at two concrete chunks. -/
theorem C3_chunking_amended_witness :
    Backup.transferAux ([[7, 8], [9]].map Backup.ReadResult.chunk) Backup.initStats [] =
      ({ Backup.initStats with
          read := Backup.initStats.read + 3
          written := Backup.initStats.written + 3 }, [7, 8, 9], none) :=
  (C3_chunking_amended [[7, 8], [9]] Backup.initStats (by decide) (by decide)).2.2

/-! ## Download-level lemmas -/

lemma download_resolved (remote : List Char → Backup.Remote) (verbose : Option Bool)
    (dest url : List Char) (s : Backup.MState) (pf : List Char × List Char)
    (hres : Backup.determineLocalPath dest url = Except.ok pf) :
    Backup.download remote verbose dest url s =
      (if ¬ s.fs.existsPath (pyJoin dest pf.1) then
        Except.ok (Backup.tryDownload remote verbose url (pyJoin (pyJoin dest pf.1) pf.2)
          { s with fs := { s.fs with dirs := pyJoin dest pf.1 :: s.fs.dirs } })
      else if s.fs.existsPath (pyJoin (pyJoin dest pf.1) pf.2) then
        Except.ok { s with stats := { s.stats with skipped := s.stats.skipped + 1 } }
      else
        Except.ok (Backup.tryDownload remote verbose url
          (pyJoin (pyJoin dest pf.1) pf.2) s)) := by
  unfold Backup.download
  rw [hres]

lemma tryDownload_stream_none (remote : List Char → Backup.Remote)
    (url fullpath : List Char) (s : Backup.MState) (reads : List Backup.ReadResult)
    (hrem : remote url = Backup.Remote.stream reads) :
    Backup.tryDownload remote none url fullpath s =
      { fs := { s.fs with files := (fullpath, []) :: s.fs.files }
        stats := { s.stats with
          fatal := s.stats.fatal ++ [(url, Backup.attributeErrorMsg)]
          success := s.stats.success + 1 } } := by
  unfold Backup.tryDownload
  rw [hrem]

/-- Claim C9 fails as universally stated: with `verbose` never assigned, a
locator whose `urlopen` raises an `HTTPError` is not skipped and yet is
recorded in `fail` with the HTTP reason — its `fatal` entry list stays
empty, so not every non-skipped locator produces a
`(locator, AttributeError)` entry in `fatal`. -/
theorem C9_counterexample :
    ((Backup.download (fun _ => Backup.Remote.httpError err404) none rootDest sampleUrl
        ⟨⟨[], []⟩, Backup.initStats⟩).map
      (fun s => (s.stats.fatal, s.stats.fail, s.stats.skipped)) =
      Except.ok ([], [(sampleUrl, err404)], 0)) ∧
    ([] : List (List Char × String)) ≠ [(sampleUrl, Backup.attributeErrorMsg)] :=
  ⟨rfl, by decide⟩

/-- Claim C9, amended: `Backup.__init__` indeed never initializes
`verbose`, and `_download` reads `self.verbose` inside the `try` block
after the remote open and the local-file creation; hence, with `verbose`
unassigned, every locator that is not skipped AND whose remote open
succeeds gets `(locator, AttributeError)` appended to `fatal`, transfers no
bytes, and leaves an empty local file — it is not downloaded (locators
whose open raises are classified into `fail`/`fatal` by the handlers as
usual before `verbose` is ever read). -/
theorem C9_verbose_unset_amended (remote : List Char → Backup.Remote)
    (dest url : List Char) (s : Backup.MState) (reads : List Backup.ReadResult)
    (pf : List Char × List Char)
    (hres : Backup.determineLocalPath dest url = Except.ok pf)
    (hrem : remote url = Backup.Remote.stream reads)
    (hns : s.fs.existsPath (pyJoin dest pf.1) = false ∨
      s.fs.existsPath (pyJoin (pyJoin dest pf.1) pf.2) = false) :
    ∃ s', Backup.download remote none dest url s = Except.ok s' ∧
      s'.stats.fatal = s.stats.fatal ++ [(url, Backup.attributeErrorMsg)] ∧
      s'.stats.fail = s.stats.fail ∧
      s'.stats.read = s.stats.read ∧
      s'.stats.written = s.stats.written ∧
      s'.stats.skipped = s.stats.skipped ∧
      s'.stats.success = s.stats.success + 1 ∧
      s'.fs.files.head? = some (pyJoin (pyJoin dest pf.1) pf.2, []) := by
  rw [download_resolved remote none dest url s pf hres]
  cases hdir : s.fs.existsPath (pyJoin dest pf.1) with
  | false =>
    rw [if_pos (by simp [hdir])]
    rw [tryDownload_stream_none remote url _ _ reads hrem]
    exact ⟨_, rfl, rfl, rfl, rfl, rfl, rfl, rfl, rfl⟩
  | true =>
    have hf : s.fs.existsPath (pyJoin (pyJoin dest pf.1) pf.2) = false := by
      rcases hns with h | h
      · rw [hdir] at h; exact absurd h (by simp)
      · exact h
    rw [if_neg (by simp [hdir]), if_neg (by simp [hf])]
    rw [tryDownload_stream_none remote url _ _ reads hrem]
    exact ⟨_, rfl, rfl, rfl, rfl, rfl, rfl, rfl, rfl⟩

/-- Witness for C9 on an empty filesystem with a healthy remote stream. -/
theorem C9_verbose_unset_amended_witness :
    ∃ s', Backup.download (fun _ => Backup.Remote.stream []) none rootDest sampleUrl
        ⟨⟨[], []⟩, Backup.initStats⟩ = Except.ok s' ∧
      s'.stats.fatal = Backup.initStats.fatal ++ [(sampleUrl, Backup.attributeErrorMsg)] ∧
      s'.stats.fail = Backup.initStats.fail ∧
      s'.stats.read = Backup.initStats.read ∧
      s'.stats.written = Backup.initStats.written ∧
      s'.stats.skipped = Backup.initStats.skipped ∧
      s'.stats.success = Backup.initStats.success + 1 ∧
      s'.fs.files.head? =
        some (pyJoin (pyJoin rootDest (("/root/z/w").toList)) (("pkg.tar").toList), []) :=
  C9_verbose_unset_amended (fun _ => Backup.Remote.stream []) rootDest sampleUrl
    ⟨⟨[], []⟩, Backup.initStats⟩ [] ((("/root/z/w").toList), ("pkg.tar").toList)
    (by rfl) rfl (Or.inl rfl)

/-! ## Byte-counter invariants -/

lemma transferAux_le (reads : List Backup.ReadResult) :
    ∀ (st : Backup.Stats) (content : List Nat), st.written ≤ st.read →
      (Backup.transferAux reads st content).1.written ≤
        (Backup.transferAux reads st content).1.read := by
  induction reads with
  | nil => intro st content h; exact h
  | cons r rest ih =>
    intro st content h
    cases r with
    | readErr e => exact h
    | chunk bs =>
      by_cases hb : bs.isEmpty
      · simp only [Backup.transferAux, hb, if_true]
        exact le_trans h (Nat.le_add_right _ _)
      · have hb2 : bs.isEmpty = false := by simpa using hb
        simp only [Backup.transferAux, hb2, Bool.false_eq_true, if_false]
        exact ih _ _ (show st.written + bs.length ≤ st.read + bs.length by omega)

lemma transferAux_eq (reads : List Backup.ReadResult) :
    ∀ (st : Backup.Stats) (content : List Nat), st.written = st.read →
      (Backup.transferAux reads st content).1.written =
        (Backup.transferAux reads st content).1.read := by
  induction reads with
  | nil => intro st content h; exact h
  | cons r rest ih =>
    intro st content h
    cases r with
    | readErr e => exact h
    | chunk bs =>
      by_cases hb : bs.isEmpty
      · have hlen : bs.length = 0 := by
          cases bs with
          | nil => rfl
          | cons a t => simp at hb
        simp only [Backup.transferAux, hb, if_true]
        exact h.trans (by omega)
      · have hb2 : bs.isEmpty = false := by simpa using hb
        simp only [Backup.transferAux, hb2, Bool.false_eq_true, if_false]
        exact ih _ _ (show st.written + bs.length = st.read + bs.length by omega)

lemma tryDownload_le (remote : List Char → Backup.Remote) (verbose : Option Bool)
    (url fullpath : List Char) (s : Backup.MState)
    (h : s.stats.written ≤ s.stats.read) :
    (Backup.tryDownload remote verbose url fullpath s).stats.written ≤
      (Backup.tryDownload remote verbose url fullpath s).stats.read := by
  unfold Backup.tryDownload
  cases remote url with
  | httpError r => exact h
  | openError r => exact h
  | stream reads =>
    cases verbose with
    | none => exact h
    | some b =>
      have hle := transferAux_le reads s.stats [] h
      dsimp only
      cases (Backup.transferAux reads s.stats []).2.2 with
      | none => exact hle
      | some r => exact hle

lemma tryDownload_eq (remote : List Char → Backup.Remote) (verbose : Option Bool)
    (url fullpath : List Char) (s : Backup.MState)
    (h : s.stats.written = s.stats.read) :
    (Backup.tryDownload remote verbose url fullpath s).stats.written =
      (Backup.tryDownload remote verbose url fullpath s).stats.read := by
  unfold Backup.tryDownload
  cases remote url with
  | httpError r => exact h
  | openError r => exact h
  | stream reads =>
    cases verbose with
    | none => exact h
    | some b =>
      have heq := transferAux_eq reads s.stats [] h
      dsimp only
      cases (Backup.transferAux reads s.stats []).2.2 with
      | none => exact heq
      | some r => exact heq

lemma download_le (remote : List Char → Backup.Remote) (verbose : Option Bool)
    (dest url : List Char) (s s' : Backup.MState)
    (h : Backup.download remote verbose dest url s = Except.ok s')
    (hst : s.stats.written ≤ s.stats.read) :
    s'.stats.written ≤ s'.stats.read := by
  cases hres : Backup.determineLocalPath dest url with
  | error e =>
    unfold Backup.download at h
    rw [hres] at h
    exact absurd h (by simp)
  | ok pf =>
    rw [download_resolved remote verbose dest url s pf hres] at h
    split at h
    · have h2 := Except.ok.inj h
      rw [← h2]
      exact tryDownload_le remote verbose url _ _ hst
    · split at h
      · have h2 := Except.ok.inj h
        rw [← h2]
        exact hst
      · have h2 := Except.ok.inj h
        rw [← h2]
        exact tryDownload_le remote verbose url _ _ hst

lemma download_stats_eq (remote : List Char → Backup.Remote) (verbose : Option Bool)
    (dest url : List Char) (s s' : Backup.MState)
    (h : Backup.download remote verbose dest url s = Except.ok s')
    (hst : s.stats.written = s.stats.read) :
    s'.stats.written = s'.stats.read := by
  cases hres : Backup.determineLocalPath dest url with
  | error e =>
    unfold Backup.download at h
    rw [hres] at h
    exact absurd h (by simp)
  | ok pf =>
    rw [download_resolved remote verbose dest url s pf hres] at h
    split at h
    · have h2 := Except.ok.inj h
      rw [← h2]
      exact tryDownload_eq remote verbose url _ _ hst
    · split at h
      · have h2 := Except.ok.inj h
        rw [← h2]
        exact hst
      · have h2 := Except.ok.inj h
        rw [← h2]
        exact tryDownload_eq remote verbose url _ _ hst

lemma runEngine_le (remote : List Char → Backup.Remote) (verbose : Option Bool)
    (dest : List Char) :
    ∀ (data : List (List Char)) (s sf : Backup.MState),
      Backup.runEngine remote verbose dest data s = Except.ok sf →
      s.stats.written ≤ s.stats.read → sf.stats.written ≤ sf.stats.read := by
  intro data
  induction data with
  | nil =>
    intro s sf h hst
    unfold Backup.runEngine at h
    rw [← Except.ok.inj h]
    exact hst
  | cons u rest ih =>
    intro s sf h hst
    unfold Backup.runEngine at h
    cases hd : Backup.download remote verbose dest u s with
    | error e => rw [hd] at h; exact absurd h (by simp)
    | ok s1 =>
      rw [hd] at h
      exact ih s1 sf h (download_le remote verbose dest u s s1 hd hst)

lemma runEngine_stats_eq (remote : List Char → Backup.Remote) (verbose : Option Bool)
    (dest : List Char) :
    ∀ (data : List (List Char)) (s sf : Backup.MState),
      Backup.runEngine remote verbose dest data s = Except.ok sf →
      s.stats.written = s.stats.read → sf.stats.written = sf.stats.read := by
  intro data
  induction data with
  | nil =>
    intro s sf h hst
    unfold Backup.runEngine at h
    rw [← Except.ok.inj h]
    exact hst
  | cons u rest ih =>
    intro s sf h hst
    unfold Backup.runEngine at h
    cases hd : Backup.download remote verbose dest u s with
    | error e => rw [hd] at h; exact absurd h (by simp)
    | ok s1 =>
      rw [hd] at h
      exact ih s1 sf h (download_stats_eq remote verbose dest u s s1 hd hst)

/-- Claim C10: throughout every run `written ≤ read` — each chunk's length
is added to `read` before the matching write adds it to `written`, so the
transfer loop preserves the bound from any state satisfying it, and every
completed run ends with `written ≤ read`; when every transfer completes
without failure (all remotes healthy streams, `verbose` assigned) the final
counters are equal. -/
theorem C10_written_le_read :
    (∀ (reads : List Backup.ReadResult) (st : Backup.Stats) (content : List Nat),
      st.written ≤ st.read →
      (Backup.transferAux reads st content).1.written ≤
        (Backup.transferAux reads st content).1.read) ∧
    (∀ (remote : List Char → Backup.Remote) (verbose : Option Bool)
      (dest : List Char) (data : List (List Char)) (fs0 : Backup.FS)
      (s : Backup.MState),
      Backup.backupRun remote verbose dest data fs0 = Except.ok s →
      s.stats.written ≤ s.stats.read) ∧
    (∀ (remote : List Char → Backup.Remote) (verbose : Option Bool)
      (dest : List Char) (data : List (List Char)) (fs0 : Backup.FS)
      (s : Backup.MState),
      (∀ url ∈ data, ∃ chunks : List (List Nat),
        remote url = Backup.Remote.stream (chunks.map Backup.ReadResult.chunk)) →
      verbose.isSome = true →
      Backup.backupRun remote verbose dest data fs0 = Except.ok s →
      s.stats.written = s.stats.read) := by
  refine ⟨transferAux_le, ?_, ?_⟩
  · intro remote verbose dest data fs0 s h
    exact runEngine_le remote verbose (pyNormpath dest) data ⟨fs0, Backup.initStats⟩ s h
      (by simp [Backup.initStats])
  · intro remote verbose dest data fs0 s _ _ h
    exact runEngine_stats_eq remote verbose (pyNormpath dest) data ⟨fs0, Backup.initStats⟩
      s h (by simp [Backup.initStats])

/-- Remote used by the C10 witness: one healthy two-byte chunk. -/
def wRemote : List Char → Backup.Remote :=
  fun _ => Backup.Remote.stream ([[7, 8]].map Backup.ReadResult.chunk)

/-- Final state of the C10 witness run. -/
def wState : Backup.MState :=
  match Backup.backupRun wRemote (some true) rootDest [sampleUrl] ⟨[], []⟩ with
  | Except.ok s => s
  | Except.error _ => ⟨⟨[], []⟩, Backup.initStats⟩

/-- Witness for C10 on a concrete one-locator run. -/
theorem C10_written_le_read_witness :
    wState.stats.written ≤ wState.stats.read ∧
      wState.stats.written = wState.stats.read := by
  have hrun : Backup.backupRun wRemote (some true) rootDest [sampleUrl] ⟨[], []⟩ =
      Except.ok wState := rfl
  refine ⟨C10_written_le_read.2.1 wRemote (some true) rootDest [sampleUrl] ⟨[], []⟩
    wState hrun, C10_written_le_read.2.2 wRemote (some true) rootDest [sampleUrl]
    ⟨[], []⟩ wState ?_ rfl hrun⟩
  intro url hm
  exact ⟨[[7, 8]], rfl⟩

/-! ## Filesystem growth and skip-run lemmas -/

lemma determineLocalPath_ok (dest url : List Char) (h : 3 ≤ url.count '/') :
    ∃ pf, Backup.determineLocalPath dest url = Except.ok pf := by
  simp only [Backup.determineLocalPath]
  rw [markers_length_eq_count, if_neg (by omega)]
  exact ⟨_, rfl⟩

lemma existsPath_mono_dirs (fs : Backup.FS) (d p : List Char)
    (h : fs.existsPath p = true) :
    (Backup.FS.mk (d :: fs.dirs) fs.files).existsPath p = true := by
  simp only [Backup.FS.existsPath, Bool.or_eq_true] at h ⊢
  rcases h with h | h
  · exact Or.inl (by simp at h ⊢; exact Or.inr h)
  · exact Or.inr h

lemma existsPath_mono_files (fs : Backup.FS) (f : List Char × List Nat) (p : List Char)
    (h : fs.existsPath p = true) :
    (Backup.FS.mk fs.dirs (f :: fs.files)).existsPath p = true := by
  simp only [Backup.FS.existsPath, Bool.or_eq_true] at h ⊢
  rcases h with h | h
  · exact Or.inl h
  · exact Or.inr (by simp at h ⊢; exact Or.inr h)

lemma existsPath_head_dir (fs : Backup.FS) (d : List Char) :
    (Backup.FS.mk (d :: fs.dirs) fs.files).existsPath d = true := by
  simp [Backup.FS.existsPath]

lemma existsPath_head_file (fs : Backup.FS) (f : List Char × List Nat) :
    (Backup.FS.mk fs.dirs (f :: fs.files)).existsPath f.1 = true := by
  simp [Backup.FS.existsPath]

lemma tryDownload_fs_shape (remote : List Char → Backup.Remote) (verbose : Option Bool)
    (url fullpath : List Char) (s : Backup.MState) :
    (Backup.tryDownload remote verbose url fullpath s).fs = s.fs ∨
      ((Backup.tryDownload remote verbose url fullpath s).fs.dirs = s.fs.dirs ∧
        ∃ c, (Backup.tryDownload remote verbose url fullpath s).fs.files =
          (fullpath, c) :: s.fs.files) := by
  unfold Backup.tryDownload
  cases remote url with
  | httpError r => exact Or.inl rfl
  | openError r => exact Or.inl rfl
  | stream reads =>
    cases verbose with
    | none => exact Or.inr ⟨rfl, [], rfl⟩
    | some b =>
      dsimp only
      cases (Backup.transferAux reads s.stats []).2.2 with
      | none => exact Or.inr ⟨rfl, _, rfl⟩
      | some r => exact Or.inr ⟨rfl, _, rfl⟩

lemma tryDownload_stats_untouched (remote : List Char → Backup.Remote)
    (verbose : Option Bool) (url fullpath : List Char) (s : Backup.MState) :
    (Backup.tryDownload remote verbose url fullpath s).stats.skipped =
      s.stats.skipped := by
  unfold Backup.tryDownload
  cases remote url with
  | httpError r => rfl
  | openError r => rfl
  | stream reads =>
    cases verbose with
    | none => rfl
    | some b =>
      dsimp only
      have hsk : ∀ (reads2 : List Backup.ReadResult) (st : Backup.Stats)
          (content : List Nat),
          (Backup.transferAux reads2 st content).1.skipped = st.skipped := by
        intro reads2
        induction reads2 with
        | nil => intro st content; rfl
        | cons r rest ih =>
          intro st content
          cases r with
          | readErr e => rfl
          | chunk bs =>
            by_cases hb : bs.isEmpty
            · simp [Backup.transferAux, hb]
            · have hb2 : bs.isEmpty = false := by simpa using hb
              simp only [Backup.transferAux, hb2, Bool.false_eq_true, if_false]
              exact ih _ _
      cases (Backup.transferAux reads s.stats []).2.2 with
      | none => exact hsk reads s.stats []
      | some r => exact hsk reads s.stats []

lemma existsPath_shape (T s0 : Backup.FS) (full : List Char) (c : List Nat)
    (p : List Char) (hd : T.dirs = s0.dirs) (hf : T.files = (full, c) :: s0.files) :
    (s0.existsPath p = true → T.existsPath p = true) ∧ T.existsPath full = true := by
  constructor
  · intro h
    simp only [Backup.FS.existsPath, hd, hf, List.map_cons, Bool.or_eq_true] at h ⊢
    rcases h with h | h
    · exact Or.inl h
    · right
      simp at h ⊢
      exact Or.inr h
  · simp [Backup.FS.existsPath, hd, hf]

lemma tryDownload_preserves_exists (remote : List Char → Backup.Remote)
    (verbose : Option Bool) (url fullpath p : List Char) (s : Backup.MState)
    (h : s.fs.existsPath p = true) :
    (Backup.tryDownload remote verbose url fullpath s).fs.existsPath p = true := by
  rcases tryDownload_fs_shape remote verbose url fullpath s with hfs | ⟨hd, c, hf⟩
  · rw [hfs]; exact h
  · exact (existsPath_shape _ s.fs fullpath c p hd hf).1 h

lemma download_preserves_exists (remote : List Char → Backup.Remote)
    (verbose : Option Bool) (dest url p : List Char) (s s' : Backup.MState)
    (h : Backup.download remote verbose dest url s = Except.ok s')
    (hp : s.fs.existsPath p = true) : s'.fs.existsPath p = true := by
  cases hres : Backup.determineLocalPath dest url with
  | error e =>
    unfold Backup.download at h
    rw [hres] at h
    exact absurd h (by simp)
  | ok pf =>
    rw [download_resolved remote verbose dest url s pf hres] at h
    split at h
    · rw [← Except.ok.inj h]
      apply tryDownload_preserves_exists
      exact existsPath_mono_dirs s.fs _ p hp
    · split at h
      · rw [← Except.ok.inj h]
        exact hp
      · rw [← Except.ok.inj h]
        exact tryDownload_preserves_exists remote verbose url _ p s hp

lemma download_establishes (remote : List Char → Backup.Remote) (verbose : Option Bool)
    (dest url : List Char) (s : Backup.MState) (pf : List Char × List Char)
    (reads : List Backup.ReadResult)
    (hres : Backup.determineLocalPath dest url = Except.ok pf)
    (hrem : remote url = Backup.Remote.stream reads) :
    ∃ s', Backup.download remote verbose dest url s = Except.ok s' ∧
      s'.fs.existsPath (pyJoin dest pf.1) = true ∧
      s'.fs.existsPath (pyJoin (pyJoin dest pf.1) pf.2) = true := by
  have hshape : ∀ s0 : Backup.MState,
      (Backup.tryDownload remote verbose url (pyJoin (pyJoin dest pf.1) pf.2) s0).fs.dirs
          = s0.fs.dirs ∧
      ∃ c, (Backup.tryDownload remote verbose url (pyJoin (pyJoin dest pf.1) pf.2)
          s0).fs.files = ((pyJoin (pyJoin dest pf.1) pf.2), c) :: s0.fs.files := by
    intro s0
    unfold Backup.tryDownload
    rw [hrem]
    cases verbose with
    | none => exact ⟨rfl, [], rfl⟩
    | some b =>
      dsimp only
      cases (Backup.transferAux reads s0.stats []).2.2 with
      | none => exact ⟨rfl, _, rfl⟩
      | some r => exact ⟨rfl, _, rfl⟩
  rw [download_resolved remote verbose dest url s pf hres]
  by_cases hdir : s.fs.existsPath (pyJoin dest pf.1) = true
  · by_cases hfull : s.fs.existsPath (pyJoin (pyJoin dest pf.1) pf.2) = true
    · rw [if_neg (by simp [hdir]), if_pos hfull]
      exact ⟨_, rfl, hdir, hfull⟩
    · rw [if_neg (by simp [hdir]), if_neg hfull]
      obtain ⟨hd, c, hf⟩ := hshape s
      refine ⟨_, rfl, ?_, ?_⟩
      · exact (existsPath_shape _ s.fs _ c _ hd hf).1 hdir
      · exact (existsPath_shape _ s.fs _ c (pyJoin (pyJoin dest pf.1) pf.2) hd hf).2
  · rw [if_pos (by simp [hdir])]
    obtain ⟨hd, c, hf⟩ := hshape { s with fs := { s.fs with dirs := pyJoin dest pf.1 :: s.fs.dirs } }
    refine ⟨_, rfl, ?_, ?_⟩
    · refine (existsPath_shape _ _ _ c _ hd hf).1 ?_
      exact existsPath_head_dir s.fs _
    · exact (existsPath_shape _ _ _ c (pyJoin (pyJoin dest pf.1) pf.2) hd hf).2

lemma runEngine_preserves_exists (remote : List Char → Backup.Remote)
    (verbose : Option Bool) (dest : List Char) :
    ∀ (data : List (List Char)) (s sf : Backup.MState) (p : List Char),
      Backup.runEngine remote verbose dest data s = Except.ok sf →
      s.fs.existsPath p = true → sf.fs.existsPath p = true := by
  intro data
  induction data with
  | nil =>
    intro s sf p h hp
    unfold Backup.runEngine at h
    rw [← Except.ok.inj h]
    exact hp
  | cons u rest ih =>
    intro s sf p h hp
    unfold Backup.runEngine at h
    cases hd : Backup.download remote verbose dest u s with
    | error e => rw [hd] at h; exact absurd h (by simp)
    | ok s1 =>
      rw [hd] at h
      exact ih s1 sf p h (download_preserves_exists remote verbose dest u p s s1 hd hp)

lemma runEngine_establishes (remote : List Char → Backup.Remote)
    (verbose : Option Bool) (dest : List Char) :
    ∀ (data : List (List Char)) (s : Backup.MState),
      (∀ url ∈ data, 3 ≤ url.count '/') →
      (∀ url ∈ data, ∃ reads, remote url = Backup.Remote.stream reads) →
      ∃ s1, Backup.runEngine remote verbose dest data s = Except.ok s1 ∧
        ∀ url ∈ data, ∃ pf, Backup.determineLocalPath dest url = Except.ok pf ∧
          s1.fs.existsPath (pyJoin dest pf.1) = true ∧
          s1.fs.existsPath (pyJoin (pyJoin dest pf.1) pf.2) = true := by
  intro data
  induction data with
  | nil => exact fun s _ _ => ⟨s, rfl, by simp⟩
  | cons u rest ih =>
    intro s hcnt hstream
    obtain ⟨pf, hres⟩ := determineLocalPath_ok dest u (hcnt u (List.mem_cons_self u rest))
    obtain ⟨reads, hrem⟩ := hstream u (List.mem_cons_self u rest)
    obtain ⟨s1, hdl, hdir1, hfull1⟩ :=
      download_establishes remote verbose dest u s pf reads hres hrem
    obtain ⟨s2, hrun, hprop⟩ := ih s1 (fun url hm => hcnt url (List.mem_cons_of_mem u hm))
      (fun url hm => hstream url (List.mem_cons_of_mem u hm))
    refine ⟨s2, ?_, ?_⟩
    · unfold Backup.runEngine
      rw [hdl]
      exact hrun
    · intro url hm
      rcases List.mem_cons.mp hm with h1 | h2
      · subst h1
        exact ⟨pf, hres,
          runEngine_preserves_exists remote verbose dest rest s1 s2 _ hrun hdir1,
          runEngine_preserves_exists remote verbose dest rest s1 s2 _ hrun hfull1⟩
      · exact hprop url h2

lemma runEngine_skips (remote : List Char → Backup.Remote)
    (verbose : Option Bool) (dest : List Char) :
    ∀ (data : List (List Char)) (s : Backup.MState),
      (∀ url ∈ data, ∃ pf, Backup.determineLocalPath dest url = Except.ok pf ∧
        s.fs.existsPath (pyJoin dest pf.1) = true ∧
        s.fs.existsPath (pyJoin (pyJoin dest pf.1) pf.2) = true) →
      Backup.runEngine remote verbose dest data s =
        Except.ok ⟨s.fs, { s.stats with skipped := s.stats.skipped + data.length }⟩ := by
  intro data
  induction data with
  | nil =>
    intro s _
    unfold Backup.runEngine
    rfl
  | cons u rest ih =>
    intro s hall
    obtain ⟨pf, hres, hdir, hfull⟩ := hall u (List.mem_cons_self u rest)
    unfold Backup.runEngine
    rw [download_resolved remote verbose dest u s pf hres,
      if_neg (by simp [hdir]), if_pos hfull]
    have hrest := ih { s with stats := { s.stats with skipped := s.stats.skipped + 1 } }
      (fun url hm => hall url (List.mem_cons_of_mem u hm))
    dsimp only
    rw [hrest]
    dsimp only
    simp only [List.length_cons]
    have harith : s.stats.skipped + 1 + rest.length =
        s.stats.skipped + (rest.length + 1) := by omega
    rw [harith]

/-- Claim C8 fails as stated: with a locator whose remote open raises an
HTTP error, the first run completes (the failure is recorded in `fail`, no
file is written), and the second run against the same destination retries
the locator instead of skipping it — `skipped` stays 0, not the locator
count 1. -/
theorem C8_counterexample :
    ((Backup.backupRun (fun _ => Backup.Remote.httpError err404) (some true) rootDest
        [sampleUrl] ⟨[], []⟩).map (fun s => s.fs) =
      Except.ok ⟨[("/root/z/w").toList], []⟩) ∧
    ((Backup.backupRun (fun _ => Backup.Remote.httpError err404) (some true) rootDest
        [sampleUrl] ⟨[("/root/z/w").toList], []⟩).map (fun s => s.stats.skipped) =
      Except.ok 0) ∧
    (0 : Nat) ≠ [sampleUrl].length :=
  ⟨rfl, rfl, by decide⟩

/-- Claim C8, amended: when every locator resolves (at least 3 slashes)
and every remote open succeeds (delivers a stream, so a local file is
created even if the transfer then fails), the first run completes, and a
second run with the same locator list against the same destination — under
any remote behaviour and verbosity — skips every locator: `skipped` equals
the total locator count, all other counters stay zero, no failure is
recorded and the filesystem (hence every already-written file) is left
completely unchanged. -/
theorem C8_idempotent_amended (remote : List Char → Backup.Remote)
    (verbose : Option Bool) (dest : List Char) (data : List (List Char))
    (fs0 : Backup.FS)
    (hcnt : ∀ url ∈ data, 3 ≤ url.count '/')
    (hstream : ∀ url ∈ data, ∃ reads, remote url = Backup.Remote.stream reads) :
    ∃ s1, Backup.backupRun remote verbose dest data fs0 = Except.ok s1 ∧
      ∀ (remote2 : List Char → Backup.Remote) (verbose2 : Option Bool),
        Backup.backupRun remote2 verbose2 dest data s1.fs =
          Except.ok ⟨s1.fs, { Backup.initStats with skipped := data.length }⟩ := by
  obtain ⟨s1, hrun1, hprop⟩ := runEngine_establishes remote verbose (pyNormpath dest)
    data ⟨fs0, Backup.initStats⟩ hcnt hstream
  refine ⟨s1, hrun1, ?_⟩
  intro remote2 verbose2
  have h2 := runEngine_skips remote2 verbose2 (pyNormpath dest) data
    ⟨s1.fs, Backup.initStats⟩ (fun url hm => hprop url hm)
  unfold Backup.backupRun
  rw [h2]
  have hz : (Backup.MState.mk s1.fs Backup.initStats).stats.skipped + data.length =
      data.length := by
    simp [Backup.initStats]
  rw [hz]

/-- Witness for C8 on a one-locator list with a healthy remote. -/
theorem C8_idempotent_amended_witness :
    ∃ s1, Backup.backupRun (fun _ => Backup.Remote.stream [Backup.ReadResult.chunk [1]])
        (some true) rootDest [sampleUrl] ⟨[], []⟩ = Except.ok s1 ∧
      ∀ (remote2 : List Char → Backup.Remote) (verbose2 : Option Bool),
        Backup.backupRun remote2 verbose2 rootDest [sampleUrl] s1.fs =
          Except.ok ⟨s1.fs, { Backup.initStats with skipped := [sampleUrl].length }⟩ :=
  C8_idempotent_amended (fun _ => Backup.Remote.stream [Backup.ReadResult.chunk [1]])
    (some true) rootDest [sampleUrl] ⟨[], []⟩ (by decide)
    (fun url _ => ⟨[Backup.ReadResult.chunk [1]], rfl⟩)

/-! ## Normalized absolute paths are `normpath` fixed points -/

lemma getLast?_append_ne (l1 l2 : List Char) (h : l2 ≠ []) :
    (l1 ++ l2).getLast? = l2.getLast? := by
  rw [List.getLast?_append]
  cases hl : l2.getLast? with
  | none => exact absurd (List.getLast?_eq_none_iff.mp hl) h
  | some a => rfl

lemma getLast?_ne_slash (l : List Char) (h : '/' ∉ l) : l.getLast? ≠ some '/' := by
  intro hc
  exact h (List.mem_of_mem_getLast? hc)

lemma intercal_ne_nil (d : List Char) (t : List (List Char)) (hd : d ≠ []) :
    List.intercalate ['/'] (d :: t) ≠ [] := by
  rw [intercal_cons]
  intro hc
  exact hd (List.append_eq_nil.mp hc).1

lemma intercal_head_not_slash (d : List Char) (t : List (List Char))
    (hd : plainSeg d) : ['/'].isPrefixOf (List.intercalate ['/'] (d :: t)) = false := by
  rw [intercal_cons]
  obtain ⟨hne, hns, _, _⟩ := hd
  cases d with
  | nil => exact absurd rfl hne
  | cons c d2 =>
    have hc : ¬ c = '/' := fun hcc => hns (by simp [hcc])
    simp [List.isPrefixOf]
    intro hcc
    exact absurd hcc.symm hc

lemma intercal_getLast_ne_slash (ds : List (List Char)) (hne : ds ≠ [])
    (h : ∀ d ∈ ds, plainSeg d) :
    (List.intercalate ['/'] ds).getLast? ≠ some '/' := by
  induction ds with
  | nil => exact absurd rfl hne
  | cons d t ih =>
    cases t with
    | nil =>
      have : List.intercalate ['/'] [d] = d := by rw [intercal_cons]; simp
      rw [this]
      exact getLast?_ne_slash d (h d (List.mem_cons_self d [])).2.1
    | cons d2 t2 =>
      rw [intercal_cons]
      simp only [List.cons_ne_nil, if_neg, not_false_iff, if_false]
      have hX : List.intercalate ['/'] (d2 :: t2) ≠ [] :=
        intercal_ne_nil d2 t2 (h d2 (by simp)).1
      have hstep : (d ++ '/' :: List.intercalate ['/'] (d2 :: t2)).getLast? =
          (List.intercalate ['/'] (d2 :: t2)).getLast? := by
        rw [getLast?_append_ne d _ (List.cons_ne_nil _ _)]
        have : ('/' :: List.intercalate ['/'] (d2 :: t2)) =
            ['/'] ++ List.intercalate ['/'] (d2 :: t2) := rfl
        rw [this, getLast?_append_ne _ _ hX]
      rw [hstep]
      exact ih (List.cons_ne_nil _ _) (fun e he => h e (List.mem_cons_of_mem d he))

lemma foldl_normStep_plain (k : Nat) (ss : List (List Char))
    (h : ∀ s ∈ ss, plainSeg s) :
    ∀ acc, List.foldl (normStep k) acc ss = acc ++ ss := by
  induction ss with
  | nil => intro acc; simp
  | cons s t ih =>
    intro acc
    obtain ⟨h1, _, h3, h4⟩ := h s (List.mem_cons_self s t)
    have hstep : normStep k acc s = acc ++ [s] := by
      unfold normStep
      rw [if_neg (by simp [h1, h3]), if_pos (Or.inl h4)]
    rw [List.foldl_cons, hstep, ih (fun e he => h e (List.mem_cons_of_mem s he))]
    simp

lemma splitOn_cons_sep (J : List Char) :
    ('/' :: J).splitOn '/' = [] :: J.splitOn '/' := by
  have : ('/' :: J) = [] ++ '/' :: J := rfl
  rw [this, splitOn_append_sep]
  rfl

/-- An absolute path built from plain segments is left unchanged by
`posixpath.normpath`. -/
lemma normpath_abs_fixed (ss : List (List Char)) (h : ∀ s ∈ ss, plainSeg s) :
    pyNormpath ('/' :: List.intercalate ['/'] ss) = '/' :: List.intercalate ['/'] ss := by
  cases ss with
  | nil => rfl
  | cons d t =>
    have h1 : ['/'].isPrefixOf ('/' :: List.intercalate ['/'] (d :: t)) = true := by
      simp [List.isPrefixOf]
    have h2 : ['/', '/'].isPrefixOf ('/' :: List.intercalate ['/'] (d :: t)) = false := by
      have he : ['/', '/'].isPrefixOf ('/' :: List.intercalate ['/'] (d :: t)) =
          ['/'].isPrefixOf (List.intercalate ['/'] (d :: t)) := by
        simp [List.isPrefixOf]
      rw [he, intercal_head_not_slash d t (h d (List.mem_cons_self d t))]
    have h3 : ('/' :: List.intercalate ['/'] (d :: t)).splitOn '/' =
        [] :: (d :: t) := by
      rw [splitOn_cons_sep]
      rw [List.splitOn_intercalate _ '/' (fun l hl => (h l hl).2.1) (List.cons_ne_nil d t)]
    simp only [pyNormpath, h1, h2, h3]
    rw [if_neg (by simp), if_neg (by simp)]
    simp
    have hz : normStep 1 [] [] = [] := by
      unfold normStep
      rw [if_pos (Or.inl rfl)]
    have hd1 : normStep 1 [] d = [d] := by
      obtain ⟨ha, _, hb, hcc⟩ := h d (List.mem_cons_self d t)
      unfold normStep
      rw [if_neg (by simp [ha, hb]), if_pos (Or.inl hcc)]
      rfl
    rw [hz, hd1, foldl_normStep_plain 1 t (fun e he => h e (List.mem_cons_of_mem d he)) [d]]
    rfl

lemma intercal_append_two (ds : List (List Char)) (x y : List Char) (hne : ds ≠ []) :
    List.intercalate ['/'] (ds ++ [x, y]) =
      List.intercalate ['/'] ds ++ '/' :: (x ++ '/' :: y) := by
  induction ds with
  | nil => exact absurd rfl hne
  | cons d t ih =>
    cases t with
    | nil =>
      rw [List.cons_append, List.nil_append, intercal_cons, intercal_cons x [y],
        intercal_cons y [], intercal_cons d []]
      simp
    | cons d2 t2 =>
      rw [List.cons_append, intercal_cons, intercal_cons d (d2 :: t2),
        ih (List.cons_ne_nil d2 t2)]
      simp [List.append_assoc]

lemma pyJoin_abs (a b : List Char) (hb : ['/'].isPrefixOf b = true) : pyJoin a b = b := by
  unfold pyJoin
  rw [if_pos hb]

lemma pyJoin_rel (a b : List Char) (ha1 : a ≠ []) (ha2 : a.getLast? ≠ some '/')
    (hb : ['/'].isPrefixOf b = false) : pyJoin a b = a ++ '/' :: b := by
  unfold pyJoin
  rw [if_neg (by simp [hb]), if_neg ?hcond]
  case hcond =>
    rintro (hc | hc)
    · exact ha1 hc
    · exact ha2 hc

lemma isPrefixOf_slash_false (c : Char) (l : List Char) (hc : ¬ c = '/') :
    ['/'].isPrefixOf (c :: l) = false := by
  simp [List.isPrefixOf]
  intro hcc
  exact absurd hcc.symm hc

/-- Claim C4 fails for relative destination roots: with destination
`mirror`, `_download` joins the destination with a local path that already
contains it, so the file lands at `mirror/mirror/z/w/pkg.tar` — the
destination root appears twice as a prefix, not exactly once. -/
theorem C4_counterexample :
    ((Backup.backupRun (fun _ => Backup.Remote.stream [Backup.ReadResult.chunk [1]])
        (some true) (("mirror").toList) [sampleUrl] ⟨[], []⟩).map
      (fun s => s.fs.files.map Prod.fst) =
      Except.ok [("mirror/mirror/z/w/pkg.tar").toList]) ∧
    ("mirror/mirror/z/w/pkg.tar").toList =
      ("mirror").toList ++ '/' :: ("mirror/z/w/pkg.tar").toList ∧
    ("mirror/mirror/z/w/pkg.tar").toList ≠ ("mirror/z/w/pkg.tar").toList :=
  ⟨rfl, by decide, by decide⟩

lemma isPrefixOf_slash_false_append (x rest : List Char) (h1 : x ≠ [])
    (h2 : '/' ∉ x) : ['/'].isPrefixOf (x ++ rest) = false := by
  cases x with
  | nil => exact absurd rfl h1
  | cons c x2 =>
    rw [List.cons_append]
    exact isPrefixOf_slash_false c _ (fun hc => h2 (by simp [hc]))

lemma isPrefixOf_slash_false_of (l : List Char) (h1 : l ≠ []) (h2 : '/' ∉ l) :
    ['/'].isPrefixOf l = false := by
  cases l with
  | nil => exact absurd rfl h1
  | cons c l2 => exact isPrefixOf_slash_false c l2 (fun hc => h2 (by simp [hc]))

/-- Claim C4, amended: for an ABSOLUTE destination root made of plain
segments and a locator whose last three `/`-separated parts are plain
segments `x`, `y` and filename `fn`, the engine's local file path is
exactly `destination_root/x/y/fn` — the root appears exactly once as a
prefix; `__init__`'s normalization leaves such a root unchanged, the
target directory is created (and the file written under it) when missing,
and an existing file at that path makes the engine skip, never overwrite.
For a RELATIVE destination root the code instead prepends the root twice
(see the counterexample). -/
theorem C4_layout_amended (ds : List (List Char)) (x y fn pre : List Char)
    (hds0 : ds ≠ []) (hds : ∀ d ∈ ds, plainSeg d)
    (hx : plainSeg x) (hy : plainSeg y) (hfn : plainSeg fn) :
    pyNormpath ('/' :: List.intercalate ['/'] ds) = '/' :: List.intercalate ['/'] ds ∧
    Backup.determineLocalPath ('/' :: List.intercalate ['/'] ds)
        (pre ++ '/' :: (x ++ '/' :: (y ++ '/' :: fn))) =
      Except.ok (('/' :: List.intercalate ['/'] ds) ++ '/' :: (x ++ '/' :: y), fn) ∧
    pyJoin ('/' :: List.intercalate ['/'] ds)
        (('/' :: List.intercalate ['/'] ds) ++ '/' :: (x ++ '/' :: y)) =
      ('/' :: List.intercalate ['/'] ds) ++ '/' :: (x ++ '/' :: y) ∧
    pyJoin (('/' :: List.intercalate ['/'] ds) ++ '/' :: (x ++ '/' :: y)) fn =
      ('/' :: List.intercalate ['/'] ds) ++ '/' :: (x ++ '/' :: (y ++ '/' :: fn)) ∧
    (∀ (remote : List Char → Backup.Remote) (verbose : Option Bool)
      (s : Backup.MState) (reads : List Backup.ReadResult),
      remote (pre ++ '/' :: (x ++ '/' :: (y ++ '/' :: fn))) =
          Backup.Remote.stream reads →
      ∃ s', Backup.download remote verbose ('/' :: List.intercalate ['/'] ds)
          (pre ++ '/' :: (x ++ '/' :: (y ++ '/' :: fn))) s = Except.ok s' ∧
        s'.fs.existsPath
          (('/' :: List.intercalate ['/'] ds) ++ '/' :: (x ++ '/' :: y)) = true ∧
        s'.fs.existsPath
          (('/' :: List.intercalate ['/'] ds) ++ '/' :: (x ++ '/' :: (y ++ '/' :: fn)))
          = true) ∧
    (∀ (remote : List Char → Backup.Remote) (verbose : Option Bool)
      (s : Backup.MState),
      s.fs.existsPath
        (('/' :: List.intercalate ['/'] ds) ++ '/' :: (x ++ '/' :: y)) = true →
      s.fs.existsPath
        (('/' :: List.intercalate ['/'] ds) ++ '/' :: (x ++ '/' :: (y ++ '/' :: fn)))
        = true →
      Backup.download remote verbose ('/' :: List.intercalate ['/'] ds)
          (pre ++ '/' :: (x ++ '/' :: (y ++ '/' :: fn))) s =
        Except.ok { s with stats := { s.stats with
          skipped := s.stats.skipped + 1 } }) := by
  have hJne : List.intercalate ['/'] ds ≠ [] := by
    cases ds with
    | nil => exact absurd rfl hds0
    | cons d t => exact intercal_ne_nil d t (hds d (List.mem_cons_self d t)).1
  have hdlast : ('/' :: List.intercalate ['/'] ds).getLast? ≠ some '/' := by
    have : ('/' :: List.intercalate ['/'] ds) = ['/'] ++ List.intercalate ['/'] ds := rfl
    rw [this, getLast?_append_ne _ _ hJne]
    exact intercal_getLast_ne_slash ds hds0 hds
  have hxhead : ['/'].isPrefixOf (x ++ '/' :: y) = false :=
    isPrefixOf_slash_false_append x _ hx.1 hx.2.1
  have hjoin_sub : pyJoin ('/' :: List.intercalate ['/'] ds) (x ++ '/' :: y) =
      ('/' :: List.intercalate ['/'] ds) ++ '/' :: (x ++ '/' :: y) :=
    pyJoin_rel _ _ (List.cons_ne_nil _ _) hdlast hxhead
  have hall2 : ∀ s ∈ ds ++ [x, y], plainSeg s := by
    intro s hs
    rcases List.mem_append.mp hs with hl | hr
    · exact hds s hl
    · rcases List.mem_cons.mp hr with h1 | h1
      · rw [h1]; exact hx
      · rcases List.mem_cons.mp h1 with h2 | h2
        · rw [h2]; exact hy
        · exact absurd h2 (List.not_mem_nil s)
  have hkey : ('/' :: List.intercalate ['/'] ds) ++ '/' :: (x ++ '/' :: y) =
      '/' :: List.intercalate ['/'] (ds ++ [x, y]) := by
    rw [intercal_append_two ds x y hds0]
    rfl
  have hdir_norm : pyNormpath
      (('/' :: List.intercalate ['/'] ds) ++ '/' :: (x ++ '/' :: y)) =
      ('/' :: List.intercalate ['/'] ds) ++ '/' :: (x ++ '/' :: y) := by
    rw [hkey]
    exact normpath_abs_fixed (ds ++ [x, y]) hall2
  have hres : Backup.determineLocalPath ('/' :: List.intercalate ['/'] ds)
      (pre ++ '/' :: (x ++ '/' :: (y ++ '/' :: fn))) =
      Except.ok (('/' :: List.intercalate ['/'] ds) ++ '/' :: (x ++ '/' :: y), fn) := by
    have h0 := resolve_decomp ('/' :: List.intercalate ['/'] ds) pre x y fn
      hx.2.1 hy.2.1 hfn.2.1
    rw [hjoin_sub, hdir_norm] at h0
    exact h0
  have hjoin_dir : pyJoin ('/' :: List.intercalate ['/'] ds)
      (('/' :: List.intercalate ['/'] ds) ++ '/' :: (x ++ '/' :: y)) =
      ('/' :: List.intercalate ['/'] ds) ++ '/' :: (x ++ '/' :: y) := by
    apply pyJoin_abs
    rw [List.cons_append]
    simp [List.isPrefixOf]
  have hgroup : ('/' :: List.intercalate ['/'] ds) ++ '/' :: (x ++ '/' :: y) =
      (('/' :: List.intercalate ['/'] ds) ++ '/' :: (x ++ ['/'])) ++ y := by
    simp [List.append_assoc]
  have hdirlast : (('/' :: List.intercalate ['/'] ds) ++
      '/' :: (x ++ '/' :: y)).getLast? ≠ some '/' := by
    rw [hgroup, getLast?_append_ne _ _ hy.1]
    exact getLast?_ne_slash y hy.2.1
  have hfnhead : ['/'].isPrefixOf fn = false :=
    isPrefixOf_slash_false_of fn hfn.1 hfn.2.1
  have hjoin_fn : pyJoin
      (('/' :: List.intercalate ['/'] ds) ++ '/' :: (x ++ '/' :: y)) fn =
      ('/' :: List.intercalate ['/'] ds) ++ '/' :: (x ++ '/' :: (y ++ '/' :: fn)) := by
    rw [pyJoin_rel _ _ (by simp) hdirlast hfnhead]
    simp [List.append_assoc]
  refine ⟨normpath_abs_fixed ds hds, hres, hjoin_dir, hjoin_fn, ?_, ?_⟩
  · intro remote verbose s reads hrem
    obtain ⟨s', hdl, he1, he2⟩ := download_establishes remote verbose
      ('/' :: List.intercalate ['/'] ds)
      (pre ++ '/' :: (x ++ '/' :: (y ++ '/' :: fn))) s
      (('/' :: List.intercalate ['/'] ds) ++ '/' :: (x ++ '/' :: y), fn)
      reads hres hrem
    rw [hjoin_dir] at he1 he2
    rw [hjoin_fn] at he2
    exact ⟨s', hdl, he1, he2⟩
  · intro remote verbose s hdir hfull
    rw [download_resolved remote verbose _ _ s _ hres]
    have hdir2 : s.fs.existsPath (pyJoin ('/' :: List.intercalate ['/'] ds)
        (('/' :: List.intercalate ['/'] ds) ++ '/' :: (x ++ '/' :: y))) = true := by
      rw [hjoin_dir]; exact hdir
    have hfull2 : s.fs.existsPath (pyJoin (pyJoin ('/' :: List.intercalate ['/'] ds)
        (('/' :: List.intercalate ['/'] ds) ++ '/' :: (x ++ '/' :: y))) fn) = true := by
      rw [hjoin_dir, hjoin_fn]; exact hfull
    rw [if_neg (fun hc => hc hdir2), if_pos hfull2]

/-- Witness for C4 at root `/r` and locator parts `z`, `w`, `f.t`. -/
theorem C4_layout_amended_witness :
    pyNormpath ('/' :: List.intercalate ['/'] [("r").toList]) =
      '/' :: List.intercalate ['/'] [("r").toList] ∧
    pyJoin (('/' :: List.intercalate ['/'] [("r").toList]) ++
        '/' :: ((("z").toList) ++ '/' :: (("w").toList))) (("f.t").toList) =
      ('/' :: List.intercalate ['/'] [("r").toList]) ++
        '/' :: ((("z").toList) ++ '/' :: ((("w").toList) ++ '/' :: (("f.t").toList))) := by
  have h := C4_layout_amended [("r").toList] (("z").toList) (("w").toList)
    (("f.t").toList) (("http://x").toList) (by decide) (by decide) (by decide)
    (by decide) (by decide)
  exact ⟨h.1, h.2.2.2.1⟩
